import Mathlib

/-!
# Verification of the `dll-rs` doubly linked list

A shallow embedding of `src/dll.rs`. The Rust code stores nodes in
`Rc<RefCell<Node<T>>>` cells, with owning forward links (`next : Link<T>`),
weak backward links (`prev : WeakLink<T>`), and a list header holding two
strong handles (`head`, `tail`) plus a length counter.

The embedding makes the store explicit: a heap is a list of slots indexed by
address; a slot is `some node` while the node is allocated and `none` once it
has been deallocated. `Rc` handles and `Weak` handles are both addresses; the
difference is in how the model treats them:

* allocation (`Node::new`) appends a fresh slot;
* `Weak::upgrade` succeeds exactly when the addressed slot is still allocated;
* `Rc::try_unwrap(x).ok().unwrap()` succeeds exactly when the only remaining
  strong reference to `x` is the local handle being unwrapped, i.e. when no
  strong holder in the state (`head`, `tail`, or a `next` field of an
  allocated node) still refers to that address; on success the slot is freed
  (the `Rc` deallocates).

`pop_front`/`pop_back` return `none` ("stuck") when the Rust original would
panic (the `unwrap` after `try_unwrap`) or read through a dangling handle;
the safety claims prove this never happens from reachable states.
-/

namespace DllRs

/-- `Node<T>` from `dll.rs`: one value, an owning forward link (`next`,
an address), and a weak backward link (`prev`, an address). -/
structure Node (T : Type) where
  val : T
  next : Option Nat
  prev : Option Nat
  deriving Repr

/-- A heap of `Rc<RefCell<Node<T>>>` cells: slot `a` is `some nd` while the
node at address `a` is allocated, `none` after it has been deallocated
(or if it was never allocated, past the end). -/
abbrev Heap (T : Type) := List (Option (Node T))

/-- Read the slot at address `a` (dereference a handle): `some nd` iff the
node is still allocated. -/
def hget {T : Type} : Heap T → Nat → Option (Node T)
  | [], _ => none
  | e :: _, 0 => e
  | _ :: h, n + 1 => hget h n

/-- Mutate the node at address `a` (a `borrow_mut` write); no-op on a dead
address. -/
def hmod {T : Type} : Heap T → Nat → (Node T → Node T) → Heap T
  | [], _, _ => []
  | e :: h, 0, f => e.map f :: h
  | e :: h, n + 1, f => e :: hmod h n f

/-- Deallocate the node at address `a` (the last `Rc` handle is dropped). -/
def hfree {T : Type} : Heap T → Nat → Heap T
  | [], _ => []
  | _ :: h, 0 => none :: h
  | e :: h, n + 1 => e :: hfree h n

/-- `Weak::upgrade` on the handle at address `a` succeeds iff the node is
still allocated. -/
def alive {T : Type} (h : Heap T) (a : Nat) : Bool :=
  (hget h a).isSome

/-- `DoublyLinkedList<T>` from `dll.rs`: strong handles to both ends and a
length counter, together with the heap of nodes the handles point into. -/
structure DLL (T : Type) where
  heap : Heap T
  head : Option Nat
  tail : Option Nat
  len : Nat
  deriving Repr

namespace DLL

variable {T : Type}

/-- `DoublyLinkedList::new`: empty heap, no head, no tail, length 0. -/
def new : DLL T := { heap := [], head := none, tail := none, len := 0 }

/-- `DoublyLinkedList::is_empty`: `self.len == 0`. -/
def is_empty (s : DLL T) : Bool := s.len == 0

/-- Number of strong `next`-references to address `r` held by allocated
nodes in the heap. -/
def nextRefs (h : Heap T) (r : Nat) : Nat :=
  h.countP fun e =>
    match e with
    | some nd => decide (nd.next = some r)
    | none => false

/-- Total number of strong references to address `r` held by the list
structure itself: the `head` handle, the `tail` handle, and the `next`
fields of allocated nodes.  `Rc::try_unwrap` on a local handle to `r`
succeeds exactly when this count is 0 (the local handle is the only
remaining strong reference). -/
def strongRefs (s : DLL T) (r : Nat) : Nat :=
  (if s.head = some r then 1 else 0) + (if s.tail = some r then 1 else 0) +
    nextRefs s.heap r

/-- `old_tail.borrow_mut().prev.take().and_then(|w| w.upgrade())`:
upgrade a taken weak back-reference, succeeding iff the target is alive. -/
def upgradeWeak (h : Heap T) : Option Nat → Option Nat
  | none => none
  | some p => if alive h p then some p else none

/-- `DoublyLinkedList::push_front`.  Allocates the new node at the fresh
address `s.heap.length`; if the list was nonempty, the old head's `prev`
is set to a weak handle to the new node and the new node's `next` takes
ownership of the old head. -/
def push_front (s : DLL T) (v : T) : DLL T :=
  let a := s.heap.length
  let h1 : Heap T := s.heap ++ [some { val := v, next := none, prev := none }]
  match s.head with
  | some oldHead =>
      let h2 := hmod h1 oldHead fun nd => { nd with prev := some a }
      let h3 := hmod h2 a fun nd => { nd with next := some oldHead }
      { heap := h3, head := some a, tail := s.tail, len := s.len + 1 }
  | none =>
      { heap := h1, head := some a, tail := some a, len := s.len + 1 }

/-- `DoublyLinkedList::push_back`.  Mirror image of `push_front`: the old
tail's `next` takes ownership of the new node and the new node's `prev`
is a weak handle to the old tail. -/
def push_back (s : DLL T) (v : T) : DLL T :=
  let a := s.heap.length
  let h1 : Heap T := s.heap ++ [some { val := v, next := none, prev := none }]
  match s.tail with
  | some oldTail =>
      let h2 := hmod h1 oldTail fun nd => { nd with next := some a }
      let h3 := hmod h2 a fun nd => { nd with prev := some oldTail }
      { heap := h3, head := s.head, tail := some a, len := s.len + 1 }
  | none =>
      { heap := h1, head := some a, tail := some a, len := s.len + 1 }

/-- `DoublyLinkedList::pop_front`.  Returns `none` when the Rust original
would be undefined or panic: reading through a dangling head handle, or
`Rc::try_unwrap(old_head).ok().unwrap()` failing because a strong
reference other than the local handle survives.  Otherwise returns
`some (r, s')` where `r` is the method's `Option<T>` result. -/
def pop_front (s : DLL T) : Option (Option T × DLL T) :=
  match s.head with
  | none => some (none, s)
  | some oldHead =>
    match hget s.heap oldHead with
    | none => none
    | some nd =>
      let s2 : DLL T :=
        match nd.next with
        | some newHead =>
            let h1 := hmod s.heap oldHead fun n => { n with next := none }
            let h2 := hmod h1 newHead fun n => { n with prev := none }
            { heap := h2, head := some newHead, tail := s.tail, len := s.len - 1 }
        | none =>
            let h1 := hmod s.heap oldHead fun n => { n with next := none }
            { heap := h1, head := none, tail := none, len := s.len - 1 }
      if strongRefs s2 oldHead = 0 then
        some (some nd.val, { s2 with heap := hfree s2.heap oldHead })
      else none

/-- `DoublyLinkedList::pop_back`.  Takes the tail handle, takes the removed
node's weak `prev` and upgrades it (`upgradeWeak`); on success the
predecessor's `next` is taken and the predecessor becomes the new tail,
otherwise head is cleared.  Returns `none` exactly when the Rust original
would be undefined or panic (dangling tail handle, or the final
`Rc::try_unwrap(old_tail).ok().unwrap()` failing). -/
def pop_back (s : DLL T) : Option (Option T × DLL T) :=
  match s.tail with
  | none => some (none, s)
  | some oldTail =>
    match hget s.heap oldTail with
    | none => none
    | some nd =>
      let h0 := hmod s.heap oldTail fun n => { n with prev := none }
      let s2 : DLL T :=
        match upgradeWeak s.heap nd.prev with
        | some newTail =>
            let h1 := hmod h0 newTail fun n => { n with next := none }
            { heap := h1, head := s.head, tail := some newTail, len := s.len - 1 }
        | none =>
            { heap := h0, head := none, tail := none, len := s.len - 1 }
      if strongRefs s2 oldTail = 0 then
        some (some nd.val, { s2 with heap := hfree s2.heap oldTail })
      else none

end DLL

/-- One public operation on the list. -/
inductive Op (T : Type) where
  | pushFront : T → Op T
  | pushBack : T → Op T
  | popFront : Op T
  | popBack : Op T
  | length : Op T
  | isEmpty : Op T
  deriving Repr

/-- The observable result of one public operation. -/
inductive Out (T : Type) where
  | unit : Out T
  | popped : Option T → Out T
  | len : Nat → Out T
  | empty : Bool → Out T
  deriving Repr, DecidableEq

namespace DLL

variable {T : Type}

/-- Run one operation; `none` means the Rust original panics there. -/
def step (s : DLL T) : Op T → Option (DLL T × Out T)
  | .pushFront v => some (push_front s v, .unit)
  | .pushBack v => some (push_back s v, .unit)
  | .popFront => (pop_front s).map fun p => (p.2, .popped p.1)
  | .popBack => (pop_back s).map fun p => (p.2, .popped p.1)
  | .length => some (s, .len s.len)
  | .isEmpty => some (s, .empty s.is_empty)

/-- Run a sequence of operations from state `s`, collecting the observable
results; `none` as soon as one operation panics. -/
def runFrom (s : DLL T) : List (Op T) → Option (DLL T × List (Out T))
  | [] => some (s, [])
  | op :: ops =>
    match step s op with
    | none => none
    | some (s1, r) =>
      match runFrom s1 ops with
      | none => none
      | some (s2, rs) => some (s2, r :: rs)

/-- The teardown loop of `impl Drop for DoublyLinkedList`:
`while self.pop_front().is_some() {}`, with explicit fuel bounding the
number of `pop_front` calls.  Returns the number of loop iterations whose
`pop_front` returned a value (the loop body runs once per such call);
`none` if the fuel runs out before `pop_front` returns `None`, or if a
`pop_front` panics. -/
def drain : Nat → DLL T → Nat → Option Nat
  | 0, _, _ => none
  | fuel + 1, s, k =>
    match pop_front s with
    | none => none
    | some (none, _) => some k
    | some (some _, s1) => drain fuel s1 (k + 1)

end DLL

/-- Reference functional deque model, following the spec's words: the list
state is a plain sequence; `push_front` prepends, `push_back` appends,
`pop_front` removes the first element, `pop_back` removes the last. -/
def specStep {T : Type} (l : List T) : Op T → List T × Out T
  | .pushFront v => (v :: l, .unit)
  | .pushBack v => (l ++ [v], .unit)
  | .popFront => (l.tail, .popped l.head?)
  | .popBack => (l.dropLast, .popped l.getLast?)
  | .length => (l, .len l.length)
  | .isEmpty => (l, .empty (l.length == 0))

/-- Run of the reference functional deque model. -/
def specRun {T : Type} (l : List T) : List (Op T) → List T × List (Out T)
  | [] => (l, [])
  | op :: ops =>
    let p := specStep l op
    let q := specRun p.1 ops
    (q.1, p.2 :: q.2)

/-! ## Heap lemmas -/

section HeapLemmas

variable {T : Type}

theorem hget_nil (a : Nat) : hget ([] : Heap T) a = none := rfl

theorem hget_hmod_self (h : Heap T) (a : Nat) (f : Node T → Node T) :
    hget (hmod h a f) a = (hget h a).map f := by
  induction h generalizing a with
  | nil => simp [hget, hmod]
  | cons e h ih =>
    cases a with
    | zero => simp [hget, hmod]
    | succ n => simpa [hget, hmod] using ih n

theorem hget_hmod_ne (h : Heap T) {a b : Nat} (hab : a ≠ b) (f : Node T → Node T) :
    hget (hmod h a f) b = hget h b := by
  induction h generalizing a b with
  | nil => simp [hmod]
  | cons e h ih =>
    cases a with
    | zero =>
      cases b with
      | zero => exact absurd rfl hab
      | succ m => simp [hget, hmod]
    | succ n =>
      cases b with
      | zero => simp [hget, hmod]
      | succ m => simpa [hget, hmod] using ih (fun hnm => hab (by omega))

theorem hget_hfree_self (h : Heap T) (a : Nat) : hget (hfree h a) a = none := by
  induction h generalizing a with
  | nil => simp [hget, hfree]
  | cons e h ih =>
    cases a with
    | zero => simp [hget, hfree]
    | succ n => simpa [hget, hfree] using ih n

theorem hget_hfree_ne (h : Heap T) {a b : Nat} (hab : a ≠ b) :
    hget (hfree h a) b = hget h b := by
  induction h generalizing a b with
  | nil => simp [hfree]
  | cons e h ih =>
    cases a with
    | zero =>
      cases b with
      | zero => exact absurd rfl hab
      | succ m => simp [hget, hfree]
    | succ n =>
      cases b with
      | zero => simp [hget, hfree]
      | succ m => simpa [hget, hfree] using ih (fun hnm => hab (by omega))

theorem length_hmod (h : Heap T) (a : Nat) (f : Node T → Node T) :
    (hmod h a f).length = h.length := by
  induction h generalizing a with
  | nil => rfl
  | cons e h ih =>
    cases a with
    | zero => simp [hmod]
    | succ n => simpa [hmod] using ih n

theorem length_hfree (h : Heap T) (a : Nat) : (hfree h a).length = h.length := by
  induction h generalizing a with
  | nil => rfl
  | cons e h ih =>
    cases a with
    | zero => simp [hfree]
    | succ n => simpa [hfree] using ih n

theorem hget_lt_length {h : Heap T} {a : Nat} {nd : Node T}
    (hg : hget h a = some nd) : a < h.length := by
  induction h generalizing a with
  | nil => simp [hget] at hg
  | cons e h ih =>
    cases a with
    | zero => simp
    | succ n => simpa using Nat.succ_lt_succ (ih hg)

theorem hget_append_self (h : Heap T) (x : Option (Node T)) :
    hget (h ++ [x]) h.length = x := by
  induction h with
  | nil => rfl
  | cons e h ih => simpa [hget] using ih

theorem hget_append_lt (h : Heap T) (x : Option (Node T)) {a : Nat}
    (ha : a < h.length) : hget (h ++ [x]) a = hget h a := by
  induction h generalizing a with
  | nil => simp at ha
  | cons e h ih =>
    cases a with
    | zero => rfl
    | succ n => simpa [hget] using ih (by simpa using ha)

theorem mem_of_hget {h : Heap T} {a : Nat} {nd : Node T}
    (hg : hget h a = some nd) : (some nd) ∈ h := by
  induction h generalizing a with
  | nil => simp [hget] at hg
  | cons e h ih =>
    cases a with
    | zero => exact hg ▸ List.mem_cons_self _ _
    | succ n => exact List.mem_cons_of_mem _ (ih hg)

theorem hget_of_mem {h : Heap T} {e : Option (Node T)} (he : e ∈ h) :
    ∃ a, hget h a = e := by
  induction h with
  | nil => simp at he
  | cons e0 h ih =>
    rcases List.mem_cons.1 he with rfl | he0
    · exact ⟨0, rfl⟩
    · obtain ⟨a, ha⟩ := ih he0
      exact ⟨a + 1, ha⟩

/-- `nextRefs h r = 0` iff no allocated node of `h` has `next = some r`. -/
theorem nextRefs_eq_zero {h : Heap T} {r : Nat} :
    DLL.nextRefs h r = 0 ↔ ∀ nd : Node T, (some nd) ∈ h → nd.next ≠ some r := by
  unfold DLL.nextRefs
  rw [List.countP_eq_zero]
  constructor
  · intro hall nd hmem hnext
    have := hall _ hmem
    simp [hnext] at this
  · intro hall e hmem
    cases e with
    | none => simp
    | some nd => simpa using hall nd hmem

end HeapLemmas

/-! ## Doubly linked segments

`Seg h p c stop l` says: starting from the handle `c` and following `next`
fields through heap `h` until the handle `stop` is reached, one traverses
exactly the (address, value) pairs of `l`, every traversed node is
allocated, and the `prev` field of each traversed node points to the
address of the node before it (`p` for the first one). -/

inductive Seg {T : Type} (h : Heap T) :
    Option Nat → Option Nat → Option Nat → List (Nat × T) → Prop where
  | nil (p stop : Option Nat) : Seg h p stop stop []
  | cons (p : Option Nat) (a : Nat) (nd : Node T) (stop : Option Nat)
      (rest : List (Nat × T)) (hg : hget h a = some nd) (hp : nd.prev = p)
      (hrest : Seg h (some a) nd.next stop rest) :
      Seg h p (some a) stop ((a, nd.val) :: rest)

/-- Addresses of a segment description. -/
def addrs {T : Type} (l : List (Nat × T)) : List Nat := l.map Prod.fst

/-- Values of a segment description. -/
def vals {T : Type} (l : List (Nat × T)) : List T := l.map Prod.snd

/-- Address of the last node of `l`, or `p` if `l` is empty (the `prev`
parameter a segment placed after `l` must carry). -/
def endPrev {T : Type} (p : Option Nat) : List (Nat × T) → Option Nat
  | [] => p
  | (a, _) :: rest => endPrev (some a) rest

/-- Address of the last node of `l`, if any. -/
def lastA {T : Type} (l : List (Nat × T)) : Option Nat := endPrev none l

section SegLemmas

variable {T : Type}

theorem endPrev_ne_nil {l : List (Nat × T)} (hl : l ≠ []) (q q' : Option Nat) :
    endPrev q l = endPrev q' l := by
  cases l with
  | nil => exact absurd rfl hl
  | cons x rest => obtain ⟨a, v⟩ := x; rfl

theorem lastA_cons (a : Nat) (v : T) (rest : List (Nat × T)) :
    lastA ((a, v) :: rest) = endPrev (some a) rest := rfl

theorem endPrev_mem {l : List (Nat × T)} {q : Option Nat} {c : Nat}
    (he : endPrev q l = some c) : c ∈ addrs l ∨ q = some c := by
  induction l generalizing q with
  | nil => exact Or.inr he
  | cons x rest ih =>
    rcases ih he with hc | hc
    · exact Or.inl (List.mem_cons_of_mem _ hc)
    · obtain ⟨rfl⟩ : x.1 = c := by simpa using hc
      exact Or.inl (by simp [addrs])

theorem lastA_eq_getLast (l : List (Nat × T)) : lastA l = (addrs l).getLast? := by
  induction l with
  | nil => rfl
  | cons x rest ih =>
    cases rest with
    | nil => simp [lastA, endPrev, addrs]
    | cons y rest' =>
      rw [lastA_cons, endPrev_ne_nil (by simp) (some x.1) none]
      rw [show endPrev none (y :: rest') = lastA (y :: rest') from rfl, ih]
      simp [addrs]

theorem lastA_concat (l : List (Nat × T)) (a : Nat) (v : T) :
    lastA (l ++ [(a, v)]) = some a := by
  rw [lastA_eq_getLast]
  simp [addrs]

/-- Every node listed by a segment is allocated and carries the listed
value. -/
theorem seg_mem {h : Heap T} {p c stop : Option Nat} {l : List (Nat × T)}
    (hseg : Seg h p c stop l) :
    ∀ a v, (a, v) ∈ l → ∃ nd, hget h a = some nd ∧ nd.val = v := by
  induction hseg with
  | nil => simp
  | cons p a nd stop rest hg hp hrest ih =>
    intro b w hmem
    rcases List.mem_cons.1 hmem with heq | hmem'
    · rw [Prod.mk.injEq] at heq
      obtain ⟨rfl, rfl⟩ := heq
      exact ⟨nd, hg, rfl⟩
    · exact ih b w hmem'

/-- Mutating a node outside a segment leaves the segment intact. -/
theorem seg_frame_mod {h : Heap T} {p c stop : Option Nat} {l : List (Nat × T)}
    (hseg : Seg h p c stop l) {b : Nat} (hb : b ∉ addrs l) (f : Node T → Node T) :
    Seg (hmod h b f) p c stop l := by
  induction hseg with
  | nil => exact Seg.nil _ _
  | cons p a nd stop rest hg hp hrest ih =>
    have hba : b ≠ a := fun hba => hb (hba ▸ by simp [addrs])
    refine Seg.cons p a nd stop rest ?_ hp (ih fun hmem => hb ?_)
    · rw [hget_hmod_ne h hba f]; exact hg
    · exact List.mem_cons_of_mem _ hmem

/-- Freeing a node outside a segment leaves the segment intact. -/
theorem seg_frame_free {h : Heap T} {p c stop : Option Nat} {l : List (Nat × T)}
    (hseg : Seg h p c stop l) {b : Nat} (hb : b ∉ addrs l) :
    Seg (hfree h b) p c stop l := by
  induction hseg with
  | nil => exact Seg.nil _ _
  | cons p a nd stop rest hg hp hrest ih =>
    have hba : b ≠ a := fun hba => hb (hba ▸ by simp [addrs])
    refine Seg.cons p a nd stop rest ?_ hp (ih fun hmem => hb ?_)
    · rw [hget_hfree_ne h hba]; exact hg
    · exact List.mem_cons_of_mem _ hmem

/-- Extending the heap with a fresh slot leaves every segment intact. -/
theorem seg_frame_append {h : Heap T} {p c stop : Option Nat} {l : List (Nat × T)}
    (hseg : Seg h p c stop l) (x : Option (Node T)) :
    Seg (h ++ [x]) p c stop l := by
  induction hseg with
  | nil => exact Seg.nil _ _
  | cons p a nd stop rest hg hp hrest ih =>
    refine Seg.cons p a nd stop rest ?_ hp ih
    rw [hget_append_lt h x (hget_lt_length hg)]; exact hg

/-- Two segments placed end to end concatenate. -/
theorem seg_append {h : Heap T} {p c m stop : Option Nat}
    {l1 l2 : List (Nat × T)} (h1 : Seg h p c m l1)
    (h2 : Seg h (endPrev p l1) m stop l2) : Seg h p c stop (l1 ++ l2) := by
  induction h1 with
  | nil => exact h2
  | cons p a nd stop' rest hg hp hrest ih =>
    exact Seg.cons p a nd stop (rest ++ l2) hg hp (ih h2)

/-- A segment described by the empty list has already reached its stop. -/
theorem seg_nil_inv {h : Heap T} {p c stop : Option Nat}
    (hseg : Seg h p c stop []) : c = stop := by
  cases hseg; rfl

/-- Inversion for a segment described by a nonempty list. -/
theorem seg_cons_inv {h : Heap T} {p c stop : Option Nat} {a : Nat} {v : T}
    {l : List (Nat × T)} (hseg : Seg h p c stop ((a, v) :: l)) :
    c = some a ∧ ∃ nd, hget h a = some nd ∧ nd.val = v ∧ nd.prev = p ∧
      Seg h (some a) nd.next stop l := by
  cases hseg with
  | cons p a nd stop rest hg hp hrest => exact ⟨rfl, nd, hg, rfl, hp, hrest⟩

/-- A segment ending in `none` and described by a nonempty list splits into
its last node and the prefix segment stopping at it. -/
theorem seg_split_last {h : Heap T} {p c : Option Nat} {l : List (Nat × T)}
    {b : Nat} {w : T} (hseg : Seg h p c none (l ++ [(b, w)])) :
    ∃ nd, hget h b = some nd ∧ nd.val = w ∧ nd.next = none ∧
      nd.prev = endPrev p l ∧ Seg h p c (some b) l := by
  induction l generalizing p c with
  | nil =>
    obtain ⟨rfl, nd, hg, hv, hp, hrest⟩ := seg_cons_inv (by simpa using hseg)
    exact ⟨nd, hg, hv, seg_nil_inv hrest, hp, Seg.nil _ _⟩
  | cons x rest ih =>
    obtain ⟨a, v⟩ := x
    obtain ⟨rfl, nd, hg, hv, hp, hrest⟩ := seg_cons_inv (by simpa using hseg)
    obtain ⟨nd', hg', hv', hn', hp', hseg'⟩ := ih hrest
    exact ⟨nd', hg', hv', hn', hp',
      hv ▸ Seg.cons p a nd (some b) rest hg hp hseg'⟩

/-- Redirecting the `next` field of a segment's last node moves the
segment's stop handle to the new target. -/
theorem seg_set_last_next {h : Heap T} {p c stop : Option Nat}
    {l : List (Nat × T)} (hseg : Seg h p c stop l) (hnd : (addrs l).Nodup)
    {b : Nat} (hb : lastA l = some b) (t : Option Nat) :
    Seg (hmod h b fun n => { n with next := t }) p c t l := by
  induction hseg with
  | nil => simp [lastA, endPrev] at hb
  | cons p a nd stop rest hg hp hrest ih =>
    cases rest with
    | nil =>
      obtain rfl : a = b := by simpa [lastA, endPrev] using hb
      have hnext : nd.next = stop := seg_nil_inv hrest
      refine Seg.cons p a { nd with next := t } t [] ?_ hp (Seg.nil _ _)
      rw [hget_hmod_self, hg]; rfl
    | cons y rest' =>
      have hrest_ne : y :: rest' ≠ ([] : List (Nat × T)) := by simp
      have hb' : lastA (y :: rest') = some b := by
        rw [lastA_cons, endPrev_ne_nil hrest_ne (some a) none] at hb
        exact hb
      have hnotmem : a ∉ addrs (y :: rest') := by
        have := hnd
        simp only [addrs, List.map_cons, List.nodup_cons] at this
        simpa [addrs] using this.1
      have hba : b ≠ a := by
        have hmem : b ∈ addrs (y :: rest') := by
          rcases endPrev_mem (q := none) hb' with hm | hm
          · exact hm
          · simp at hm
        intro hba
        exact hnotmem (hba ▸ hmem)
      refine Seg.cons p a nd t (y :: rest') ?_ hp ?_
      · rw [hget_hmod_ne h hba]; exact hg
      · exact ih (List.Nodup.of_cons hnd) hb'

/-- Redirecting the `prev` field of a segment's first node changes only the
segment's incoming `prev` parameter. -/
theorem seg_set_first_prev {h : Heap T} {p stop : Option Nat} {a : Nat}
    {v : T} {l : List (Nat × T)} (hseg : Seg h p (some a) stop ((a, v) :: l))
    (hnd : (addrs ((a, v) :: l)).Nodup) (q : Option Nat) :
    Seg (hmod h a fun n => { n with prev := q }) q (some a) stop ((a, v) :: l) := by
  obtain ⟨-, nd, hg, hv, hp, hrest⟩ := seg_cons_inv hseg
  have ha : a ∉ addrs l := by
    have := hnd
    simp only [addrs, List.map_cons, List.nodup_cons] at this
    exact this.1
  have hcons : Seg (hmod h a fun n => { n with prev := q }) q (some a) stop
      ((a, nd.val) :: l) := by
    refine Seg.cons q a { nd with prev := q } stop l ?_ rfl ?_
    · rw [hget_hmod_self, hg]; rfl
    · exact seg_frame_mod hrest ha _
  exact hv ▸ hcons

/-- Every `next` link of a node listed by a segment points either inside
the segment or at its stop handle. -/
theorem seg_targets {h : Heap T} {p c stop : Option Nat} {l : List (Nat × T)}
    (hseg : Seg h p c stop l) :
    ∀ a v, (a, v) ∈ l → ∀ nd, hget h a = some nd → ∀ b, nd.next = some b →
      b ∈ addrs l ∨ stop = some b := by
  induction hseg with
  | nil => simp
  | cons p a0 nd0 stop rest hg hp hrest ih =>
    intro a v hmem nd hget0 b hnext
    rcases List.mem_cons.1 hmem with heq | hmem'
    · rw [Prod.mk.injEq] at heq
      obtain ⟨rfl, rfl⟩ := heq
      obtain rfl : nd0 = nd := by rw [hg] at hget0; exact Option.some.inj hget0
      rw [hnext] at hrest
      cases rest with
      | nil => exact Or.inr (seg_nil_inv hrest).symm
      | cons y rest' =>
        obtain ⟨yb, yv⟩ := y
        obtain ⟨hcb, -⟩ := seg_cons_inv hrest
        obtain rfl : yb = b := Option.some.inj hcb.symm
        exact Or.inl (by simp [addrs])
    · rcases ih a v hmem' nd hget0 b hnext with hb | hb
      · exact Or.inl (List.mem_cons_of_mem _ hb)
      · exact Or.inr hb

/-- Every address listed by a segment is in range. -/
theorem seg_addr_lt {h : Heap T} {p c stop : Option Nat} {l : List (Nat × T)}
    (hseg : Seg h p c stop l) : ∀ b ∈ addrs l, b < h.length := by
  intro b hb
  obtain ⟨⟨b', w⟩, hmem, rfl⟩ := List.mem_map.1 hb
  obtain ⟨nd, hg, -⟩ := seg_mem hseg b' w hmem
  exact hget_lt_length hg

/-- A segment starting from the null handle is empty. -/
theorem seg_none_inv {h : Heap T} {p stop : Option Nat} {l : List (Nat × T)}
    (hseg : Seg h p none stop l) : l = [] ∧ stop = none := by
  cases hseg
  exact ⟨rfl, rfl⟩

/-- A chain starting from a non-null handle lists that handle first. -/
theorem seg_chain_some_inv {h : Heap T} {p : Option Nat} {a : Nat}
    {l : List (Nat × T)} (hseg : Seg h p (some a) none l) :
    ∃ v rest, l = (a, v) :: rest := by
  cases hseg with
  | cons p a nd stop rest hg hp hrest => exact ⟨nd.val, rest, rfl⟩

theorem lastA_eq_none {l : List (Nat × T)} (hl : lastA l = none) : l = [] := by
  rcases List.eq_nil_or_concat l with rfl | ⟨l', y, rfl⟩
  · rfl
  · obtain ⟨a, v⟩ := y
    rw [List.concat_eq_append, lastA_concat] at hl
    cases hl

theorem mem_addrs {l : List (Nat × T)} {b : Nat} (hb : b ∈ addrs l) :
    ∃ w, (b, w) ∈ l := by
  obtain ⟨⟨b', w⟩, hmem, rfl⟩ := List.mem_map.1 hb
  exact ⟨w, hmem⟩

theorem hget_hmod_isSome (h : Heap T) (x : Nat) (f : Node T → Node T) (b : Nat) :
    (hget (hmod h x f) b).isSome = (hget h b).isSome := by
  by_cases hbx : x = b
  · subst hbx; rw [hget_hmod_self]; cases hget h x <;> rfl
  · rw [hget_hmod_ne h hbx]

theorem hget_append_cases {h : Heap T} {x : Option (Node T)} {b : Nat}
    {nd : Node T} (hg : hget (h ++ [x]) b = some nd) :
    b < h.length ∧ hget h b = some nd ∨ b = h.length ∧ x = some nd := by
  rcases Nat.lt_trichotomy b h.length with hb | hb | hb
  · exact Or.inl ⟨hb, by rw [← hget_append_lt h x hb]; exact hg⟩
  · refine Or.inr ⟨hb, ?_⟩
    subst hb
    rw [hget_append_self] at hg
    exact hg
  · have := hget_lt_length hg
    simp [List.length_append] at this
    omega

end SegLemmas

/-! ## The representation invariant -/

/-- The representation invariant of `DoublyLinkedList<T>`, relating a list
state `s` to the (address, value) pairs `l` of its nodes in order: the
heap contains a doubly linked chain from `s.head` listing exactly `l`
(with correct `prev` back-references), the chain addresses are distinct,
`s.len` is the chain length, `s.tail` addresses the chain's last node,
and every allocated node of the heap lies on the chain. -/
structure Inv {T : Type} (s : DLL T) (l : List (Nat × T)) : Prop where
  chain : Seg s.heap none s.head none l
  nodup : (addrs l).Nodup
  len_eq : s.len = l.length
  tail_eq : s.tail = lastA l
  complete : ∀ a nd, hget s.heap a = some nd → a ∈ addrs l

section InvLemmas

open DLL

variable {T : Type}

theorem inv_new : Inv (DLL.new : DLL T) [] where
  chain := Seg.nil none none
  nodup := List.nodup_nil
  len_eq := rfl
  tail_eq := rfl
  complete := fun a nd hg => by
    rw [show (DLL.new : DLL T).heap = [] from rfl, hget_nil] at hg
    cases hg

theorem inv_push_front {s : DLL T} {l : List (Nat × T)} (hs : Inv s l)
    (v : T) : Inv (s.push_front v) ((s.heap.length, v) :: l) := by
  obtain ⟨hchain, hnodup, hlen, htail, hcomp⟩ := hs
  set a := s.heap.length with ha
  have hfresh : a ∉ addrs l := fun hmem => by
    have := seg_addr_lt hchain a hmem
    omega
  cases hhead : s.head with
  | none =>
    obtain ⟨rfl, -⟩ := seg_none_inv (hhead ▸ hchain)
    refine ⟨?_, by simp [addrs], by simp [DLL.push_front, hhead, hlen],
      by simp [DLL.push_front, hhead, lastA, endPrev], ?_⟩
    · have hg : hget (s.heap ++ [some { val := v, next := none, prev := none }]) a =
          some { val := v, next := none, prev := none } := hget_append_self _ _
      have hseg1 : Seg (s.heap ++ [some { val := v, next := none, prev := none }])
          none (some a) none [(a, v)] :=
        Seg.cons none a { val := v, next := none, prev := none } none [] hg rfl
          (Seg.nil _ _)
      simp only [DLL.push_front, hhead]
      exact hseg1
    · intro b nd hg
      simp only [DLL.push_front, hhead] at hg
      rcases hget_append_cases hg with ⟨hb, hgb⟩ | ⟨hb, -⟩
      · exact absurd (hcomp b nd hgb) (by simp [addrs])
      · simp [addrs, hb]
  | some oldHead =>
    obtain ⟨v0, rest, rfl⟩ := seg_chain_some_inv (hhead ▸ hchain)
    have hl_ne : (oldHead, v0) :: rest ≠ ([] : List (Nat × T)) := by simp
    set nnode : Node T := { val := v, next := none, prev := none } with hn
    set h1 := s.heap ++ [some nnode] with hh1
    have hchain1 : Seg h1 none (some oldHead) none ((oldHead, v0) :: rest) :=
      seg_frame_append (hhead ▸ hchain) _
    have hchain2 := seg_set_first_prev hchain1 hnodup (some a)
    set h2 := hmod h1 oldHead fun n => { n with prev := some a } with hh2
    have hchain3 : Seg (hmod h2 a fun n => { n with next := some oldHead })
        (some a) (some oldHead) none ((oldHead, v0) :: rest) :=
      seg_frame_mod hchain2 hfresh _
    set h3 := hmod h2 a fun n => { n with next := some oldHead } with hh3
    have hga : hget h3 a = some { val := v, next := some oldHead, prev := none } := by
      rw [hh3, hget_hmod_self, hh2,
        hget_hmod_ne h1 (fun heq : oldHead = a => hfresh (heq ▸ by simp [addrs])) _,
        hh1, hget_append_self]
      rfl
    have hchain4 : Seg h3 none (some a) none ((a, v) :: (oldHead, v0) :: rest) := by
      have := Seg.cons none a { val := v, next := some oldHead, prev := none } none
        ((oldHead, v0) :: rest) hga rfl hchain3
      simpa using this
    refine ⟨?_, ?_, ?_, ?_, ?_⟩
    · simp only [DLL.push_front, hhead]
      exact hchain4
    · show (a :: addrs ((oldHead, v0) :: rest)).Nodup
      exact List.nodup_cons.2 ⟨hfresh, hnodup⟩
    · simp [DLL.push_front, hhead, hlen]
    · rw [show ((s.push_front v).tail) = s.tail by simp [DLL.push_front, hhead]]
      rw [htail, lastA_cons, lastA_cons]
      rfl
    · intro b nd hg
      have hg3 : hget (s.push_front v).heap b = hget h3 b := by
        simp [DLL.push_front, hhead, hh3, hh2, hh1]
      rw [hg3] at hg
      have hsome : (hget h1 b).isSome = true := by
        rw [← hget_hmod_isSome h1 oldHead (fun n => { n with prev := some a }) b,
          ← hh2, ← hget_hmod_isSome h2 a (fun n => { n with next := some oldHead }) b,
          ← hh3, hg]
        rfl
      obtain ⟨nd1, hg1⟩ := Option.isSome_iff_exists.1 hsome
      rcases hget_append_cases (hh1 ▸ hg1) with ⟨hb, hgb⟩ | ⟨hb, -⟩
      · exact List.mem_cons_of_mem _ (hcomp b nd1 hgb)
      · simp [addrs, hb, ha]

theorem addrs_append (l1 l2 : List (Nat × T)) :
    addrs (l1 ++ l2) = addrs l1 ++ addrs l2 := List.map_append _ _ _

theorem inv_push_back {s : DLL T} {l : List (Nat × T)} (hs : Inv s l)
    (v : T) : Inv (s.push_back v) (l ++ [(s.heap.length, v)]) := by
  obtain ⟨hchain, hnodup, hlen, htail, hcomp⟩ := hs
  set a := s.heap.length with ha
  have hfresh : a ∉ addrs l := fun hmem => by
    have := seg_addr_lt hchain a hmem
    omega
  cases htail0 : s.tail with
  | none =>
    have hlnil : l = [] := lastA_eq_none (htail.symm.trans htail0)
    subst hlnil
    have hhead : s.head = none := seg_nil_inv hchain
    refine ⟨?_, by simp [addrs], by simp [DLL.push_back, htail0, hlen],
      by simp [DLL.push_back, htail0, lastA, endPrev], ?_⟩
    · have hg : hget (s.heap ++ [some { val := v, next := none, prev := none }]) a =
          some { val := v, next := none, prev := none } := hget_append_self _ _
      have hseg1 : Seg (s.heap ++ [some { val := v, next := none, prev := none }])
          none (some a) none [(a, v)] :=
        Seg.cons none a { val := v, next := none, prev := none } none [] hg rfl
          (Seg.nil _ _)
      simp only [DLL.push_back, htail0]
      simpa using hseg1
    · intro b nd hg
      simp only [DLL.push_back, htail0] at hg
      rcases hget_append_cases hg with ⟨hb, hgb⟩ | ⟨hb, -⟩
      · exact absurd (hcomp b nd hgb) (by simp [addrs])
      · simp [addrs, hb]
  | some oldTail =>
    have hlast : lastA l = some oldTail := htail.symm.trans htail0
    have hmemT : oldTail ∈ addrs l := by
      rcases endPrev_mem (q := none) hlast with hm | hm
      · exact hm
      · cases hm
    have hTne : oldTail ≠ a := fun heq => by
      have := seg_addr_lt hchain oldTail hmemT
      omega
    set nnode : Node T := { val := v, next := none, prev := none } with hn
    set h1 := s.heap ++ [some nnode] with hh1
    have hchain1 : Seg h1 none s.head none l := seg_frame_append hchain _
    have hchain2 := seg_set_last_next hchain1 hnodup hlast (some a)
    set h2 := hmod h1 oldTail fun n => { n with next := some a } with hh2
    have hchain3 : Seg (hmod h2 a fun n => { n with prev := some oldTail })
        none s.head (some a) l := seg_frame_mod hchain2 hfresh _
    set h3 := hmod h2 a fun n => { n with prev := some oldTail } with hh3
    have hga : hget h3 a = some { val := v, next := none, prev := some oldTail } := by
      rw [hh3, hget_hmod_self, hh2, hget_hmod_ne h1 hTne _, hh1, hget_append_self]
      rfl
    have htailseg : Seg h3 (some oldTail) (some a) none [(a, v)] := by
      have := Seg.cons (some oldTail) a
        { val := v, next := none, prev := some oldTail } none [] hga rfl (Seg.nil _ _)
      simpa using this
    have hchain4 : Seg h3 none s.head none (l ++ [(a, v)]) := by
      refine seg_append hchain3 ?_
      cases hl0 : l with
      | nil => rw [hl0] at hlast; simp [lastA, endPrev] at hlast
      | cons y rest =>
        rw [show endPrev none (y :: rest) = lastA (y :: rest) from rfl]
        rw [hl0] at hlast
        rw [hlast]
        exact htailseg
    refine ⟨?_, ?_, ?_, ?_, ?_⟩
    · simp only [DLL.push_back, htail0]
      exact hchain4
    · rw [addrs_append, List.nodup_append]
      refine ⟨hnodup, by simp [addrs], ?_⟩
      intro x hx hx2
      simp only [addrs, List.map_cons, List.map_nil, List.mem_singleton] at hx2
      exact hfresh (hx2 ▸ hx)
    · simp [DLL.push_back, htail0, hlen]
    · rw [show ((s.push_back v).tail) = some a by simp [DLL.push_back, htail0]]
      rw [lastA_concat]
    · intro b nd hg
      have hg3 : hget (s.push_back v).heap b = hget h3 b := by
        simp [DLL.push_back, htail0, hh3, hh2, hh1]
      rw [hg3] at hg
      have hsome : (hget h1 b).isSome = true := by
        rw [← hget_hmod_isSome h1 oldTail (fun n => { n with next := some a }) b,
          ← hh2, ← hget_hmod_isSome h2 a (fun n => { n with prev := some oldTail }) b,
          ← hh3, hg]
        rfl
      obtain ⟨nd1, hg1⟩ := Option.isSome_iff_exists.1 hsome
      rcases hget_append_cases (hh1 ▸ hg1) with ⟨hb, hgb⟩ | ⟨hb, -⟩
      · rw [addrs_append]
        exact List.mem_append_left _ (hcomp b nd1 hgb)
      · rw [addrs_append]
        exact List.mem_append_right _ (by simp [addrs, hb, ha])

/-- The no-other-strong-holder argument shared by both pops: if the nodes
of heap `h'` allocated outside `r` form the chain `l`, `r` is not on the
chain, and the node at `r` (if allocated) does not point at itself, then
no allocated node's `next` refers to `r`. -/
theorem nextRefs_zero_of_chain {h' : Heap T} {l : List (Nat × T)}
    {p c : Option Nat} {r : Nat} (hchain : Seg h' p c none l)
    (hr : r ∉ addrs l)
    (hcompl : ∀ b nd, hget h' b = some nd → b ≠ r → b ∈ addrs l)
    (hrnode : ∀ nd, hget h' r = some nd → nd.next ≠ some r) :
    nextRefs h' r = 0 := by
  refine nextRefs_eq_zero.2 ?_
  intro nd hmem hnext
  obtain ⟨b, hb⟩ := hget_of_mem hmem
  by_cases hbr : b = r
  · exact hrnode nd (hbr ▸ hb) hnext
  · have hbmem := hcompl b nd hb hbr
    obtain ⟨w, hw⟩ := mem_addrs hbmem
    obtain ⟨nd2, hg2, -⟩ := seg_mem hchain b w hw
    rcases seg_targets hchain b w hw nd hb r hnext with hm | hm
    · exact hr hm
    · cases hm

theorem inv_pop_front_nil {s : DLL T} (hs : Inv s []) :
    s.pop_front = some (none, s) := by
  have hhead : s.head = none := seg_nil_inv hs.chain
  simp [DLL.pop_front, hhead]

theorem inv_pop_front_cons {s : DLL T} {a : Nat} {v : T} {l : List (Nat × T)}
    (hs : Inv s ((a, v) :: l)) :
    ∃ s', s.pop_front = some (some v, s') ∧ Inv s' l := by
  obtain ⟨hchain, hnodup, hlen, htail, hcomp⟩ := hs
  obtain ⟨hhead, nd, hg, hv, hp, hrest⟩ := seg_cons_inv hchain
  have hfreshA : a ∉ addrs l := (List.nodup_cons.1 hnodup).1
  have hnodupl : (addrs l).Nodup := (List.nodup_cons.1 hnodup).2
  cases l with
  | nil =>
    have hnext : nd.next = none := seg_nil_inv hrest
    have hza : strongRefs { heap := hmod s.heap a (fun n => { n with next := none }),
                            head := none, tail := none, len := s.len - 1 } a = 0 := by
      have h0 : nextRefs (hmod s.heap a (fun n => { n with next := none })) a = 0 := by
        refine nextRefs_eq_zero.2 ?_
        intro nd' hmem hnext'
        obtain ⟨b, hb⟩ := hget_of_mem hmem
        by_cases hbr : b = a
        · subst hbr
          rw [hget_hmod_self, hg] at hb
          simp only [Option.map_some'] at hb
          obtain rfl := Option.some.inj hb
          simp at hnext'
        · rw [hget_hmod_ne s.heap (fun heq => hbr heq.symm)] at hb
          have := hcomp b nd' hb
          simp [addrs] at this
          exact hbr this
      simp [strongRefs, h0]
    refine ⟨{ heap := hfree (hmod s.heap a (fun n => { n with next := none })) a,
              head := none, tail := none, len := s.len - 1 }, ?_, ?_⟩
    · rw [show (some v : Option T) = some nd.val by rw [hv]]
      simp [DLL.pop_front, hhead, hg, hnext, hza]
    · refine ⟨Seg.nil _ _, List.nodup_nil, ?_, rfl, ?_⟩
      · have : s.len = 1 := by simpa using hlen
        simp [this]
      · intro b nd' hgb
        by_cases hbr : b = a
        · subst hbr
          rw [hget_hfree_self] at hgb
          cases hgb
        · rw [hget_hfree_ne _ (fun heq => hbr heq.symm),
            hget_hmod_ne s.heap (fun heq => hbr heq.symm)] at hgb
          have := hcomp b nd' hgb
          simp [addrs] at this
          exact absurd this hbr
  | cons y rest =>
    obtain ⟨a1, v1⟩ := y
    obtain ⟨hnext, nd1, hg1, hv1, hp1, hrest1⟩ := seg_cons_inv hrest
    have ha1ne : a1 ≠ a := fun heq => hfreshA (heq ▸ by simp [addrs])
    have hrest' : Seg s.heap (some a) (some a1) none ((a1, v1) :: rest) :=
      hnext ▸ hrest
    have hchain1 : Seg (hmod s.heap a fun n => { n with next := none })
        (some a) (some a1) none ((a1, v1) :: rest) :=
      seg_frame_mod hrest' hfreshA _
    have hchain2 := seg_set_first_prev hchain1 hnodupl none
    have htail' : s.tail = lastA ((a1, v1) :: rest) :=
      htail.trans ((lastA_cons a v ((a1, v1) :: rest)).trans
        (endPrev_ne_nil (by simp) (some a) none))
    have htne : s.tail ≠ some a := by
      rw [htail']
      intro heq
      rcases endPrev_mem (q := none) heq with hm | hm
      · exact hfreshA hm
      · cases hm
    have hsometrans : ∀ b nd', hget (hmod (hmod s.heap a fun n => { n with next := none })
        a1 fun n => { n with prev := none }) b = some nd' → b ≠ a →
        b ∈ addrs ((a1, v1) :: rest) := by
      intro b nd' hb hbr
      have hsome : (hget s.heap b).isSome = true := by
        rw [← hget_hmod_isSome s.heap a (fun n => { n with next := none }) b,
          ← hget_hmod_isSome (hmod s.heap a fun n => { n with next := none }) a1
            (fun n => { n with prev := none }) b, hb]
        rfl
      obtain ⟨nd0, hg0⟩ := Option.isSome_iff_exists.1 hsome
      have := hcomp b nd0 hg0
      simp only [addrs, List.map_cons, List.mem_cons] at this ⊢
      rcases this with h1 | h1
      · exact absurd h1 hbr
      · exact h1
    have hza : strongRefs { heap := hmod (hmod s.heap a (fun n => { n with next := none }))
                              a1 (fun n => { n with prev := none }),
                            head := some a1, tail := s.tail, len := s.len - 1 } a = 0 := by
      have h0 : nextRefs (hmod (hmod s.heap a fun n => { n with next := none }) a1
          fun n => { n with prev := none }) a = 0 := by
        refine nextRefs_zero_of_chain hchain2 hfreshA hsometrans ?_
        intro nd' hga hnext'
        rw [hget_hmod_ne _ ha1ne, hget_hmod_self, hg] at hga
        simp only [Option.map_some'] at hga
        obtain rfl := Option.some.inj hga
        simp at hnext'
      simp [strongRefs, h0, ha1ne, htne]
    refine ⟨{ heap := hfree (hmod (hmod s.heap a (fun n => { n with next := none })) a1
                (fun n => { n with prev := none })) a,
              head := some a1, tail := s.tail, len := s.len - 1 }, ?_, ?_⟩
    · rw [show (some v : Option T) = some nd.val by rw [hv]]
      simp [DLL.pop_front, hhead, hg, hnext, hza]
    · refine ⟨?_, hnodupl, ?_, ?_, ?_⟩
      · exact seg_frame_free hchain2 hfreshA
      · simp only [List.length_cons] at hlen ⊢
        omega
      · exact htail'
      · intro b nd' hgb
        by_cases hbr : b = a
        · subst hbr
          rw [hget_hfree_self] at hgb
          cases hgb
        · rw [hget_hfree_ne _ (fun heq => hbr heq.symm)] at hgb
          exact hsometrans b nd' hgb hbr

theorem lastA_ne_nil {l : List (Nat × T)} (hl : l ≠ []) :
    ∃ a, lastA l = some a := by
  cases hx : lastA l with
  | some a => exact ⟨a, rfl⟩
  | none => exact absurd (lastA_eq_none hx) hl

theorem inv_pop_back_nil {s : DLL T} (hs : Inv s []) :
    s.pop_back = some (none, s) := by
  have htail : s.tail = none := hs.tail_eq
  simp [DLL.pop_back, htail]

theorem inv_pop_back_snoc {s : DLL T} {b : Nat} {w : T} {l : List (Nat × T)}
    (hs : Inv s (l ++ [(b, w)])) :
    ∃ s', s.pop_back = some (some w, s') ∧ Inv s' l := by
  obtain ⟨hchain, hnodup, hlen, htail, hcomp⟩ := hs
  have htb : s.tail = some b := htail.trans (lastA_concat l b w)
  obtain ⟨nd, hg, hv, hnext, hprev, hpre⟩ := seg_split_last hchain
  have hnodup' := hnodup
  rw [addrs_append, List.nodup_append] at hnodup'
  obtain ⟨hnodupl, -, hdisj⟩ := hnodup'
  have hbnotl : b ∉ addrs l := fun hmem => by
    have := hdisj hmem
    simp [addrs] at this
  have hcompl : ∀ b' nd', hget s.heap b' = some nd' → b' ≠ b → b' ∈ addrs l := by
    intro b' nd' hb' hbb
    have := hcomp b' nd' hb'
    rw [addrs_append] at this
    rcases List.mem_append.1 this with hm | hm
    · exact hm
    · simp [addrs] at hm
      exact absurd hm hbb
  cases l with
  | nil =>
    have hprev' : nd.prev = none := hprev
    have hhead : s.head = some b := seg_nil_inv hpre
    have hza : strongRefs { heap := hmod s.heap b (fun n => { n with prev := none }),
                            head := none, tail := none, len := s.len - 1 } b = 0 := by
      have h0 : nextRefs (hmod s.heap b (fun n => { n with prev := none })) b = 0 := by
        refine nextRefs_eq_zero.2 ?_
        intro nd' hmem hnext'
        obtain ⟨b', hb'⟩ := hget_of_mem hmem
        by_cases hbr : b' = b
        · subst hbr
          rw [hget_hmod_self, hg] at hb'
          simp only [Option.map_some'] at hb'
          obtain rfl := Option.some.inj hb'
          rw [show ({ nd with prev := none } : Node T).next = nd.next from rfl, hnext]
            at hnext'
          cases hnext'
        · rw [hget_hmod_ne s.heap (fun heq => hbr heq.symm)] at hb'
          exact absurd (hcompl b' nd' hb' hbr) (by simp [addrs])
      simp [strongRefs, h0]
    refine ⟨{ heap := hfree (hmod s.heap b (fun n => { n with prev := none })) b,
              head := none, tail := none, len := s.len - 1 }, ?_, ?_⟩
    · rw [show (some w : Option T) = some nd.val by rw [hv]]
      simp [DLL.pop_back, htb, hg, hprev', DLL.upgradeWeak, hza]
    · refine ⟨Seg.nil _ _, List.nodup_nil, ?_, rfl, ?_⟩
      · have : s.len = 1 := by simpa using hlen
        simp [this]
      · intro b' nd' hgb
        by_cases hbr : b' = b
        · subst hbr
          rw [hget_hfree_self] at hgb
          cases hgb
        · rw [hget_hfree_ne _ (fun heq => hbr heq.symm),
            hget_hmod_ne s.heap (fun heq => hbr heq.symm)] at hgb
          exact absurd (hcompl b' nd' hgb hbr) (by simp [addrs])
  | cons y rest =>
    obtain ⟨p0, hp0⟩ := lastA_ne_nil (l := y :: rest) (by simp)
    have hprev' : nd.prev = some p0 := by
      rw [hprev, show endPrev none (y :: rest) = lastA (y :: rest) from rfl, hp0]
    have hp0mem : p0 ∈ addrs (y :: rest) := by
      rcases endPrev_mem (q := none) hp0 with hm | hm
      · exact hm
      · cases hm
    have hp0b : p0 ≠ b := fun heq => hbnotl (heq ▸ hp0mem)
    obtain ⟨w0, hw0⟩ := mem_addrs hp0mem
    obtain ⟨nd0, hg0, -⟩ := seg_mem hpre p0 w0 hw0
    have halive : alive s.heap p0 = true := by rw [alive, hg0]; rfl
    have hchain1 : Seg (hmod s.heap b fun n => { n with prev := none })
        none s.head (some b) (y :: rest) := seg_frame_mod hpre hbnotl _
    have hchain2 : Seg (hmod (hmod s.heap b fun n => { n with prev := none }) p0
        fun n => { n with next := none }) none s.head none (y :: rest) :=
      seg_set_last_next hchain1 hnodupl hp0 none
    obtain ⟨a0, v0⟩ := y
    have hhead : s.head = some a0 := (seg_cons_inv hpre).1
    have ha0b : a0 ≠ b := fun heq => hbnotl (heq ▸ by simp [addrs])
    have hsometrans : ∀ b' nd', hget (hmod (hmod s.heap b
        (fun n => { n with prev := none })) p0 (fun n => { n with next := none })) b' =
        some nd' → b' ≠ b → b' ∈ addrs ((a0, v0) :: rest) := by
      intro b' nd' hb' hbb
      have hsome : (hget s.heap b').isSome = true := by
        rw [← hget_hmod_isSome s.heap b (fun n => { n with prev := none }) b',
          ← hget_hmod_isSome (hmod s.heap b fun n => { n with prev := none }) p0
            (fun n => { n with next := none }) b', hb']
        rfl
      obtain ⟨nd1, hg1⟩ := Option.isSome_iff_exists.1 hsome
      exact hcompl b' nd1 hg1 hbb
    have hza : strongRefs { heap := hmod (hmod s.heap b (fun n => { n with prev := none }))
                              p0 (fun n => { n with next := none }),
                            head := s.head, tail := some p0, len := s.len - 1 } b = 0 := by
      have h0 : nextRefs (hmod (hmod s.heap b fun n => { n with prev := none }) p0
          fun n => { n with next := none }) b = 0 := by
        refine nextRefs_zero_of_chain hchain2 hbnotl hsometrans ?_
        intro nd' hgb hnext'
        rw [hget_hmod_ne _ hp0b, hget_hmod_self, hg] at hgb
        simp only [Option.map_some'] at hgb
        obtain rfl := Option.some.inj hgb
        rw [show ({ nd with prev := none } : Node T).next = nd.next from rfl, hnext]
          at hnext'
        cases hnext'
      have hhb : s.head ≠ some b := by
        rw [hhead]
        exact fun heq => ha0b (Option.some.inj heq)
      simp [strongRefs, h0, hhb, hp0b]
    refine ⟨{ heap := hfree (hmod (hmod s.heap b (fun n => { n with prev := none })) p0
                (fun n => { n with next := none })) b,
              head := s.head, tail := some p0, len := s.len - 1 }, ?_, ?_⟩
    · rw [show (some w : Option T) = some nd.val by rw [hv]]
      simp [DLL.pop_back, htb, hg, hprev', DLL.upgradeWeak, halive, hza]
    · refine ⟨?_, hnodupl, ?_, ?_, ?_⟩
      · exact seg_frame_free hchain2 hbnotl
      · simp only [List.length_cons, List.length_append, List.length_nil] at hlen ⊢
        omega
      · rw [hp0]
      · intro b' nd' hgb
        by_cases hbr : b' = b
        · subst hbr
          rw [hget_hfree_self] at hgb
          cases hgb
        · rw [hget_hfree_ne _ (fun heq => hbr heq.symm)] at hgb
          exact hsometrans b' nd' hgb hbr

end InvLemmas

/-! ## Simulation against the functional deque model -/

section Simulation

open DLL

variable {T : Type}

theorem vals_append (l1 l2 : List (Nat × T)) :
    vals (l1 ++ l2) = vals l1 ++ vals l2 := List.map_append _ _ _

theorem length_vals (l : List (Nat × T)) : (vals l).length = l.length :=
  List.length_map _ _

theorem getLast?_snoc (xs : List T) (x : T) : (xs ++ [x]).getLast? = some x := by
  simp

theorem dropLast_snoc (xs : List T) (x : T) : (xs ++ [x]).dropLast = xs := by
  simp

/-- Every run of the linked structure from an invariant-satisfying state is
simulated, step for step and output for output, by the functional deque
model running from the abstract value sequence. -/
theorem run_sim (ops : List (Op T)) :
    ∀ (s : DLL T) (l : List (Nat × T)), Inv s l →
      ∃ s' l', runFrom s ops = some (s', (specRun (vals l) ops).2) ∧
        Inv s' l' ∧ vals l' = (specRun (vals l) ops).1 := by
  induction ops with
  | nil => exact fun s l hs => ⟨s, l, rfl, hs, rfl⟩
  | cons op ops ih =>
    intro s l hs
    cases op with
    | pushFront v =>
      obtain ⟨s', l', hrun, hinv, hvals⟩ :=
        ih (s.push_front v) ((s.heap.length, v) :: l) (inv_push_front hs v)
      refine ⟨s', l', ?_, hinv, ?_⟩
      · simp [runFrom, step, specRun, specStep, hrun, vals]
      · simpa [specRun, specStep] using hvals
    | pushBack v =>
      obtain ⟨s', l', hrun, hinv, hvals⟩ :=
        ih (s.push_back v) (l ++ [(s.heap.length, v)]) (inv_push_back hs v)
      rw [vals_append] at hrun hvals
      refine ⟨s', l', ?_, hinv, ?_⟩
      · simp [runFrom, step, specRun, specStep, hrun, vals]
      · simpa [specRun, specStep] using hvals
    | popFront =>
      cases l with
      | nil =>
        obtain ⟨s', l', hrun, hinv, hvals⟩ := ih s [] hs
        refine ⟨s', l', ?_, hinv, ?_⟩
        · simp [runFrom, step, inv_pop_front_nil hs, specRun, specStep, hrun, vals]
        · simpa [specRun, specStep] using hvals
      | cons y l2 =>
        obtain ⟨a, v⟩ := y
        obtain ⟨s1, hpop, hinv1⟩ := inv_pop_front_cons hs
        obtain ⟨s', l', hrun, hinv, hvals⟩ := ih s1 l2 hinv1
        refine ⟨s', l', ?_, hinv, ?_⟩
        · simp [runFrom, step, hpop, specRun, specStep, hrun, vals]
        · simpa [specRun, specStep] using hvals
    | popBack =>
      rcases List.eq_nil_or_concat l with rfl | ⟨l2, y, hl⟩
      · obtain ⟨s', l', hrun, hinv, hvals⟩ := ih s [] hs
        refine ⟨s', l', ?_, hinv, ?_⟩
        · simp [runFrom, step, inv_pop_back_nil hs, specRun, specStep, hrun, vals]
        · simpa [specRun, specStep] using hvals
      · obtain ⟨b, w⟩ := y
        rw [List.concat_eq_append] at hl
        subst hl
        obtain ⟨s1, hpop, hinv1⟩ := inv_pop_back_snoc hs
        obtain ⟨s', l', hrun, hinv, hvals⟩ := ih s1 l2 hinv1
        refine ⟨s', l', ?_, hinv, ?_⟩
        · simp [runFrom, step, hpop, specRun, specStep, hrun, vals, vals_append,
            getLast?_snoc, dropLast_snoc]
        · simpa [specRun, specStep, vals, vals_append, dropLast_snoc] using hvals
    | length =>
      obtain ⟨s', l', hrun, hinv, hvals⟩ := ih s l hs
      refine ⟨s', l', ?_, hinv, ?_⟩
      · simp [runFrom, step, specRun, specStep, hs.len_eq, length_vals, hrun]
      · simpa [specRun, specStep] using hvals
    | isEmpty =>
      obtain ⟨s', l', hrun, hinv, hvals⟩ := ih s l hs
      refine ⟨s', l', ?_, hinv, ?_⟩
      · simp [runFrom, step, is_empty, specRun, specStep, hs.len_eq, length_vals, hrun]
      · simpa [specRun, specStep] using hvals

/-- Every run from a freshly constructed list succeeds and its final state
satisfies the representation invariant. -/
theorem run_reachable (ops : List (Op T)) :
    ∃ s' l', runFrom (new : DLL T) ops = some (s', (specRun [] ops).2) ∧
      Inv s' l' ∧ vals l' = (specRun [] ops).1 :=
  run_sim ops new [] inv_new

end Simulation

/-! ## Facts about the functional deque model -/

/-- Is this operation a push? -/
def isPush {T : Type} : Op T → Bool
  | .pushFront _ => true
  | .pushBack _ => true
  | _ => false

/-- Is this observable result a successful pop (a pop that returned a
value)? -/
def isValuePop {T : Type} : Out T → Bool
  | .popped (some _) => true
  | _ => false

section SpecModel

variable {T : Type}

theorem specRun_len (ops : List (Op T)) : ∀ m : List T,
    (specRun m ops).1.length + (specRun m ops).2.countP isValuePop =
      m.length + ops.countP isPush := by
  induction ops with
  | nil => intro m; simp [specRun]
  | cons op ops ih =>
    intro m
    cases op with
    | pushFront v =>
      have := ih (v :: m)
      simp [specRun, specStep, List.countP_cons, isPush, isValuePop,
        List.length_cons] at this ⊢
      omega
    | pushBack v =>
      have := ih (m ++ [v])
      simp [specRun, specStep, List.countP_cons, isPush, isValuePop,
        List.length_append, List.length_cons, List.length_nil] at this ⊢
      omega
    | popFront =>
      cases m with
      | nil =>
        have := ih []
        simp [specRun, specStep, List.countP_cons, isPush, isValuePop,
          List.head?_nil, List.tail_nil, List.length_nil] at this ⊢
        omega
      | cons x m2 =>
        have := ih m2
        simp [specRun, specStep, List.countP_cons, isPush, isValuePop,
          List.head?_cons, List.tail_cons, List.length_cons] at this ⊢
        omega
    | popBack =>
      rcases List.eq_nil_or_concat m with rfl | ⟨m2, b, hm⟩
      · have := ih []
        simp [specRun, specStep, List.countP_cons, isPush, isValuePop,
          List.getLast?_nil, List.dropLast_nil, List.length_nil] at this ⊢
        omega
      · rw [List.concat_eq_append] at hm
        subst hm
        have := ih m2
        simp [specRun, specStep, List.countP_cons, isPush, isValuePop,
          getLast?_snoc, dropLast_snoc, List.length_append, List.length_cons,
          List.length_nil] at this ⊢
        omega
    | length =>
      have := ih m
      simp [specRun, specStep, List.countP_cons, isPush, isValuePop] at this ⊢
      omega
    | isEmpty =>
      have := ih m
      simp [specRun, specStep, List.countP_cons, isPush, isValuePop] at this ⊢
      omega

theorem specRun_append (ops1 ops2 : List (Op T)) : ∀ m : List T,
    specRun m (ops1 ++ ops2) = ((specRun (specRun m ops1).1 ops2).1,
      (specRun m ops1).2 ++ (specRun (specRun m ops1).1 ops2).2) := by
  induction ops1 with
  | nil => intro m; simp [specRun]
  | cons op ops1 ih => intro m; simp [specRun, ih]

theorem specRun_pushFronts (vs : List T) : ∀ m : List T,
    specRun m (vs.map Op.pushFront) =
      (vs.reverse ++ m, vs.map fun _ => (Out.unit : Out T)) := by
  induction vs with
  | nil => intro m; simp [specRun]
  | cons v vs ih =>
    intro m
    simp [specRun, specStep, ih (v :: m), List.reverse_cons, List.append_assoc]

theorem specRun_pushBacks (vs : List T) : ∀ m : List T,
    specRun m (vs.map Op.pushBack) =
      (m ++ vs, vs.map fun _ => (Out.unit : Out T)) := by
  induction vs with
  | nil => intro m; simp [specRun]
  | cons v vs ih =>
    intro m
    simp [specRun, specStep, ih (m ++ [v]), List.append_assoc]

theorem specRun_popFronts : ∀ m : List T,
    specRun m (List.replicate m.length Op.popFront) =
      ([], m.map fun v => Out.popped (some v)) := by
  intro m
  induction m with
  | nil => simp [specRun]
  | cons x m2 ih => simp [specRun, specStep, List.replicate_succ, ih]

theorem specRun_popBacks (m : List T) :
    specRun m (List.replicate m.length Op.popBack) =
      ([], m.reverse.map fun v => Out.popped (some v)) := by
  induction m using List.reverseRecOn with
  | nil => simp [specRun]
  | append_singleton m2 b ih =>
    simp [specRun, specStep, List.replicate_succ, getLast?_snoc, dropLast_snoc, ih]

end SpecModel

/-! ## The claims -/

section Claims

open DLL

variable {T : Type}

/-- Any state actually reached by running operations from `new` satisfies
the representation invariant for some chain description. -/
theorem reachable_inv {ops : List (Op T)} {s : DLL T} {outs : List (Out T)}
    (h : runFrom (new : DLL T) ops = some (s, outs)) : ∃ l, Inv s l := by
  obtain ⟨s', l', hrun, hinv, -⟩ := run_reachable ops
  have heq := Option.some.inj (h.symm.trans hrun)
  rw [Prod.mk.injEq] at heq
  obtain ⟨rfl, -⟩ := heq
  exact ⟨l', hinv⟩

/-- A state satisfying the invariant has either no ends or both ends. -/
theorem inv_ends {s : DLL T} {l : List (Nat × T)} (hs : Inv s l) :
    (s.head = none ∧ s.tail = none) ∨
      ∃ a b, s.head = some a ∧ s.tail = some b := by
  cases l with
  | nil => exact Or.inl ⟨seg_nil_inv hs.chain, hs.tail_eq⟩
  | cons y rest =>
    obtain ⟨a, v⟩ := y
    obtain ⟨b, hb⟩ := lastA_ne_nil (l := (a, v) :: rest) (by simp)
    exact Or.inr ⟨a, b, (seg_cons_inv hs.chain).1, hs.tail_eq.trans hb⟩

/-- Claim C2: After every sequence of public operations from `new`, the run
succeeds and the resulting state satisfies the structural invariants: the
heap forms a doubly linked chain from `head` whose last node is addressed
by `tail`, with correct `prev` back-references, distinct node addresses,
and `len` equal to the number of nodes on the chain (`Inv`); moreover the
state has either no head and no tail, or both. -/
theorem claim2_structural_invariants (ops : List (Op T)) :
    ∃ (s : DLL T) (outs : List (Out T)) (l : List (Nat × T)),
      runFrom (new : DLL T) ops = some (s, outs) ∧ Inv s l ∧
      s.len = l.length ∧
      ((s.head = none ∧ s.tail = none) ∨
        ∃ a b, s.head = some a ∧ s.tail = some b) := by
  obtain ⟨s, l, hrun, hinv, -⟩ := run_reachable ops
  exact ⟨s, _, l, hrun, hinv, hinv.len_eq, inv_ends hinv⟩

/-- Claim C3: Symmetry law: pushing any finite sequence of values with
`push_front` and then popping `|vs|` times with `pop_back` returns the
values in original insertion order; likewise `push_back` followed by
repeated `pop_front`. -/
theorem claim3_symmetry_law (vs : List T) :
    (runFrom (new : DLL T)
        (vs.map Op.pushFront ++ List.replicate vs.length Op.popBack)).map Prod.snd =
      some ((vs.map fun _ => Out.unit) ++ vs.map fun v => Out.popped (some v)) ∧
    (runFrom (new : DLL T)
        (vs.map Op.pushBack ++ List.replicate vs.length Op.popFront)).map Prod.snd =
      some ((vs.map fun _ => Out.unit) ++ vs.map fun v => Out.popped (some v)) := by
  constructor
  · obtain ⟨s, l, hrun, -, -⟩ :=
      run_reachable (vs.map Op.pushFront ++ List.replicate vs.length Op.popBack)
    rw [hrun]
    rw [specRun_append, specRun_pushFronts]
    have hpb := specRun_popBacks (vs.reverse ++ ([] : List T))
    rw [List.append_nil, List.length_reverse] at hpb
    rw [show (vs.reverse ++ ([] : List T)) = vs.reverse from List.append_nil _, hpb]
    simp
  · obtain ⟨s, l, hrun, -, -⟩ :=
      run_reachable (vs.map Op.pushBack ++ List.replicate vs.length Op.popFront)
    rw [hrun]
    rw [specRun_append, specRun_pushBacks]
    have hpf := specRun_popFronts (([] : List T) ++ vs)
    rw [List.nil_append] at hpf
    rw [show (([] : List T) ++ vs) = vs from List.nil_append _, hpf]
    simp

/-- Claim C10: Observational refinement: every finite sequence of operations
run on the linked structure from `new` succeeds, and its whole list of
observable results (popped values, lengths, emptiness tests) equals the
results of the same operations on the plain-sequence model `specRun`,
where `push_front` prepends, `push_back` appends, `pop_front` removes the
first element and `pop_back` removes the last. -/
theorem claim10_refines_functional_deque (ops : List (Op T)) :
    ∃ s : DLL T, runFrom (new : DLL T) ops = some (s, (specRun [] ops).2) := by
  obtain ⟨s, l, hrun, -, -⟩ := run_reachable ops
  exact ⟨s, hrun⟩

/-- With fuel one more than the chain length, the teardown loop performs
exactly one successful `pop_front` per node and then sees the empty
result. -/
theorem drain_succ (fuel : Nat) (s : DLL T) (k : Nat) :
    drain (fuel + 1) s k =
      match s.pop_front with
      | none => none
      | some (none, _) => some k
      | some (some _, s1) => drain fuel s1 (k + 1) := rfl

theorem drain_inv {s : DLL T} {l : List (Nat × T)} (hs : Inv s l) :
    ∀ k, drain (l.length + 1) s k = some (l.length + k) := by
  induction l generalizing s with
  | nil =>
    intro k
    rw [show ([] : List (Nat × T)).length + 1 = 0 + 1 from rfl, drain_succ,
      inv_pop_front_nil hs]
    simp
  | cons y l2 ih =>
    obtain ⟨a, v⟩ := y
    intro k
    obtain ⟨s1, hpop, hinv1⟩ := inv_pop_front_cons hs
    have hrec := ih hinv1 (k + 1)
    rw [show ((a, v) :: l2).length + 1 = (l2.length + 1) + 1 from rfl, drain_succ, hpop]
    show drain (l2.length + 1) s1 (k + 1) = some (((a, v) :: l2).length + k)
    rw [hrec]
    congr 1
    simp
    omega

/-- With fuel at most the chain length, every `pop_front` call succeeds
and the loop has not yet terminated when the fuel runs out. -/
theorem drain_short {s : DLL T} {l : List (Nat × T)} (hs : Inv s l) :
    ∀ f k, f ≤ l.length → drain f s k = none := by
  induction l generalizing s with
  | nil =>
    intro f k hf
    obtain rfl : f = 0 := Nat.le_zero.1 hf
    rfl
  | cons y l2 ih =>
    obtain ⟨a, v⟩ := y
    intro f k hf
    cases f with
    | zero => rfl
    | succ f2 =>
      obtain ⟨s1, hpop, hinv1⟩ := inv_pop_front_cons hs
      have hrec := ih hinv1 f2 (k + 1) (by simpa using hf)
      rw [drain_succ, hpop]
      exact hrec

/-- Claim C1: Teardown is iterative: from any reachable state, the `Drop` loop
`while self.pop_front().is_some() {}` terminates after exactly `len`
value-returning `pop_front` calls — fuel `len + 1` suffices (the last
call returns the empty result), while fuel `len` is not enough. -/
theorem claim1_iterative_teardown (ops : List (Op T)) (s : DLL T)
    (outs : List (Out T)) (h : runFrom (new : DLL T) ops = some (s, outs)) :
    drain (s.len + 1) s 0 = some s.len ∧ drain s.len s 0 = none := by
  obtain ⟨l, hinv⟩ := reachable_inv h
  constructor
  · have := drain_inv hinv 0
    rw [hinv.len_eq]
    simpa using this
  · rw [hinv.len_eq]
    exact drain_short hinv l.length 0 le_rfl

/-- Claim C4: Length invariant: after any operation sequence from `new`,
`len` plus the number of successful pops (pops that returned a value)
equals the number of pushes; in particular `len` is the number of pushes
minus the number of successful pops and a pop on an empty list (which
returns no value) leaves it unchanged. -/
theorem claim4_length_invariant (ops : List (Op T)) (s : DLL T)
    (outs : List (Out T)) (h : runFrom (new : DLL T) ops = some (s, outs)) :
    s.len + outs.countP isValuePop = ops.countP isPush := by
  obtain ⟨s', l', hrun, hinv, hvals⟩ := run_reachable ops
  have heq := Option.some.inj (h.symm.trans hrun)
  rw [Prod.mk.injEq] at heq
  obtain ⟨rfl, rfl⟩ := heq
  have hlen := specRun_len ops []
  simp only [List.length_nil, Nat.zero_add] at hlen
  rw [hinv.len_eq, ← length_vals, hvals]
  exact hlen

/-- Claim C6: At the moment of detachment a popped node's only remaining owning
reference is the local handle, so the `Rc::try_unwrap(..).ok().unwrap()`
extraction in `pop_front` and `pop_back` never fails: from any reachable
state neither pop is stuck. -/
theorem claim6_unwrap_never_fails (ops : List (Op T)) (s : DLL T)
    (outs : List (Out T)) (h : runFrom (new : DLL T) ops = some (s, outs)) :
    s.pop_front ≠ none ∧ s.pop_back ≠ none := by
  obtain ⟨l, hinv⟩ := reachable_inv h
  constructor
  · cases l with
    | nil => rw [inv_pop_front_nil hinv]; simp
    | cons y l2 =>
      obtain ⟨a, v⟩ := y
      obtain ⟨s1, hpop, -⟩ := inv_pop_front_cons hinv
      rw [hpop]
      simp
  · rcases List.eq_nil_or_concat l with rfl | ⟨l2, y, hl⟩
    · rw [inv_pop_back_nil hinv]; simp
    · obtain ⟨b, w⟩ := y
      rw [List.concat_eq_append] at hl
      subst hl
      obtain ⟨s1, hpop, -⟩ := inv_pop_back_snoc hinv
      rw [hpop]
      simp

/-- Claim C7: Popping an empty reachable list from either end returns the empty
result (`none`-valued, not an error or a panic) and leaves the state
unchanged. -/
theorem claim7_pop_empty (ops : List (Op T)) (s : DLL T) (outs : List (Out T))
    (h : runFrom (new : DLL T) ops = some (s, outs)) (hlen : s.len = 0) :
    s.pop_front = some (none, s) ∧ s.pop_back = some (none, s) := by
  obtain ⟨l, hinv⟩ := reachable_inv h
  obtain rfl : l = [] := List.length_eq_zero.1 (hinv.len_eq.symm.trans hlen)
  exact ⟨inv_pop_front_nil hinv, inv_pop_back_nil hinv⟩

/-- Claim C5: In `pop_back` on a reachable state, upgrading the removed tail's
weak back-reference succeeds exactly when the list has at least two
elements (the predecessor is still owned through the forward chain at the
moment of upgrade), and whenever the upgrade yields `p`, `pop_back`
succeeds, keeps the head, and makes `p` — the predecessor — the new
tail. -/
theorem claim5_pop_back_upgrade (ops : List (Op T)) (s : DLL T)
    (outs : List (Out T)) (h : runFrom (new : DLL T) ops = some (s, outs))
    (t : Nat) (nd : Node T) (ht : s.tail = some t)
    (hg : hget s.heap t = some nd) :
    (2 ≤ s.len ↔ ∃ p, upgradeWeak s.heap nd.prev = some p) ∧
    (∀ p, upgradeWeak s.heap nd.prev = some p →
      ∃ s', s.pop_back = some (some nd.val, s') ∧ s'.tail = some p ∧
        s'.head = s.head) := by
  obtain ⟨l, hinv⟩ := reachable_inv h
  have hlast : lastA l = some t := hinv.tail_eq.symm.trans ht
  rcases List.eq_nil_or_concat l with rfl | ⟨l2, y, hl⟩
  · rw [show lastA ([] : List (Nat × T)) = none from rfl] at hlast
    cases hlast
  obtain ⟨b, w⟩ := y
  rw [List.concat_eq_append] at hl
  subst hl
  obtain rfl : b = t := Option.some.inj ((lastA_concat l2 b w).symm.trans hlast)
  obtain ⟨nd', hg', hv', hnext', hprev', hpre⟩ := seg_split_last hinv.chain
  have hndq : nd' = nd := Option.some.inj (hg'.symm.trans hg)
  rw [hndq] at hv' hnext' hprev'
  have hlen2 : s.len = l2.length + 1 := by rw [hinv.len_eq]; simp
  have hprev_of_up : ∀ p, upgradeWeak s.heap nd.prev = some p →
      nd.prev = some p := by
    intro p hp
    cases hpv : nd.prev with
    | none =>
      rw [hpv, show upgradeWeak s.heap none = none from rfl] at hp
      cases hp
    | some p0 =>
      rw [hpv, show upgradeWeak s.heap (some p0) =
        if alive s.heap p0 then some p0 else none from rfl] at hp
      cases hal : alive s.heap p0 with
      | true =>
        rw [hal] at hp
        simp at hp
        rw [hp]
      | false =>
        rw [hal] at hp
        simp at hp
  constructor
  · constructor
    · intro h2
      have hl2ne : l2 ≠ [] := by
        intro h0
        rw [h0] at hlen2
        simp at hlen2
        omega
      obtain ⟨p, hp⟩ := lastA_ne_nil hl2ne
      have hprev2 : nd.prev = some p := by rw [hprev']; exact hp
      have hpmem : p ∈ addrs l2 := by
        rcases endPrev_mem (q := none) hp with hm | hm
        · exact hm
        · cases hm
      obtain ⟨w0, hw0⟩ := mem_addrs hpmem
      obtain ⟨nd0, hg0, -⟩ := seg_mem hpre p w0 hw0
      refine ⟨p, ?_⟩
      rw [hprev2, show upgradeWeak s.heap (some p) =
        if alive s.heap p then some p else none from rfl]
      simp [alive, hg0]
    · rintro ⟨p, hp⟩
      have hprev2 := hprev_of_up p hp
      have hple : endPrev none l2 = some p := hprev'.symm.trans hprev2
      have hpmem : p ∈ addrs l2 := by
        rcases endPrev_mem (q := none) hple with hm | hm
        · exact hm
        · cases hm
      have hl2ne : l2.length ≠ 0 := by
        intro h0
        rw [List.length_eq_zero.1 h0] at hpmem
        simp [addrs] at hpmem
      omega
  · intro p hp
    have hprev2 := hprev_of_up p hp
    have hlsome : lastA l2 = some p := hprev'.symm.trans hprev2
    obtain ⟨s1, hpop, hinv1⟩ := inv_pop_back_snoc hinv
    refine ⟨s1, ?_, hinv1.tail_eq.trans hlsome, ?_⟩
    · rw [hv']
      exact hpop
    · have hl2ne : l2 ≠ [] := by
        intro h0
        rw [h0, show lastA ([] : List (Nat × T)) = none from rfl] at hlsome
        cases hlsome
      cases l2 with
      | nil => exact absurd rfl hl2ne
      | cons z l3 =>
        obtain ⟨a0, v0⟩ := z
        have h1 : s.head = some a0 := (seg_cons_inv hinv.chain).1
        have h2 : s1.head = some a0 := (seg_cons_inv hinv1.chain).1
        rw [h1, h2]

/-- Claim C8: LIFO from the front: pushing `v1, v2, v3` with `push_front` and
then calling `pop_front` four times yields `v3, v2, v1`, then no value. -/
theorem claim8_lifo_front (v1 v2 v3 : T) :
    (runFrom (new : DLL T) [Op.pushFront v1, Op.pushFront v2, Op.pushFront v3,
        Op.popFront, Op.popFront, Op.popFront, Op.popFront]).map Prod.snd =
      some [Out.unit, Out.unit, Out.unit, Out.popped (some v3),
        Out.popped (some v2), Out.popped (some v1), Out.popped none] := by
  obtain ⟨s, l, hrun, -, -⟩ := run_reachable
    (T := T) [Op.pushFront v1, Op.pushFront v2, Op.pushFront v3,
      Op.popFront, Op.popFront, Op.popFront, Op.popFront]
  rw [hrun]
  rfl

/-- Claim C9: Pushing `v1, v2, v3` with `push_back` and then calling `pop_back`
four times yields `v3, v2, v1`, then no value. -/
theorem claim9_lifo_back (v1 v2 v3 : T) :
    (runFrom (new : DLL T) [Op.pushBack v1, Op.pushBack v2, Op.pushBack v3,
        Op.popBack, Op.popBack, Op.popBack, Op.popBack]).map Prod.snd =
      some [Out.unit, Out.unit, Out.unit, Out.popped (some v3),
        Out.popped (some v2), Out.popped (some v1), Out.popped none] := by
  obtain ⟨s, l, hrun, -, -⟩ := run_reachable
    (T := T) [Op.pushBack v1, Op.pushBack v2, Op.pushBack v3,
      Op.popBack, Op.popBack, Op.popBack, Op.popBack]
  rw [hrun]
  rfl

/-- Witness for C1 at the concrete two-element list `[1, 2]`. -/
theorem claim1_witness :
    drain 3 { heap := [some { val := 1, next := some 1, prev := none },
                       some { val := (2 : Nat), next := none, prev := some 0 }],
              head := some 0, tail := some 1, len := 2 } 0 = some 2 ∧
    drain 2 { heap := [some { val := 1, next := some 1, prev := none },
                       some { val := (2 : Nat), next := none, prev := some 0 }],
              head := some 0, tail := some 1, len := 2 } 0 = none :=
  claim1_iterative_teardown [Op.pushBack 1, Op.pushBack 2] _
    [Out.unit, Out.unit] rfl

/-- Witness for C4: one push and two pops leave length 0 with one
successful pop. -/
theorem claim4_witness :
    (0 : Nat) + List.countP isValuePop
        [Out.unit, Out.popped (some 1), (Out.popped none : Out Nat)] =
      List.countP isPush [Op.pushFront (1 : Nat), Op.popFront, Op.popFront] :=
  claim4_length_invariant [Op.pushFront 1, Op.popFront, Op.popFront]
    { heap := [none], head := none, tail := none, len := 0 }
    [Out.unit, Out.popped (some 1), Out.popped none] rfl

/-- Witness for C5 at the concrete two-element list `[10, 20]`. -/
theorem claim5_witness :
    (2 ≤ 2 ↔ ∃ p, upgradeWeak
        [some { val := 10, next := some 1, prev := none },
         some { val := (20 : Nat), next := none, prev := some 0 }]
        (some 0) = some p) ∧
    (∀ p, upgradeWeak
        [some { val := 10, next := some 1, prev := none },
         some { val := (20 : Nat), next := none, prev := some 0 }]
        (some 0) = some p →
      ∃ s', DLL.pop_back { heap := [some { val := 10, next := some 1, prev := none },
                                    some { val := (20 : Nat), next := none,
                                           prev := some 0 }],
                           head := some 0, tail := some 1, len := 2 } =
          some (some 20, s') ∧ s'.tail = some p ∧ s'.head = some 0) :=
  claim5_pop_back_upgrade [Op.pushBack 10, Op.pushBack 20] _
    [Out.unit, Out.unit] rfl 1 { val := 20, next := none, prev := some 0 } rfl rfl

/-- Witness for C6 at the concrete one-element list `[5]`. -/
theorem claim6_witness :
    DLL.pop_front { heap := [some { val := (5 : Nat), next := none, prev := none }],
                    head := some 0, tail := some 0, len := 1 } ≠ none ∧
    DLL.pop_back { heap := [some { val := (5 : Nat), next := none, prev := none }],
                   head := some 0, tail := some 0, len := 1 } ≠ none :=
  claim6_unwrap_never_fails [Op.pushFront 5] _ [Out.unit] rfl

/-- Witness for C7 at the concrete emptied list after a push and a pop. -/
theorem claim7_witness :
    DLL.pop_front { heap := [(none : Option (Node Nat))], head := none,
                    tail := none, len := 0 } =
      some (none, { heap := [(none : Option (Node Nat))], head := none,
                    tail := none, len := 0 }) ∧
    DLL.pop_back { heap := [(none : Option (Node Nat))], head := none,
                   tail := none, len := 0 } =
      some (none, { heap := [(none : Option (Node Nat))], head := none,
                    tail := none, len := 0 }) :=
  claim7_pop_empty [Op.pushBack 7, Op.popBack] _
    [Out.unit, Out.popped (some 7)] rfl rfl

end Claims

end DllRs
